import Mathlib

/-!
Verification of the ImGuiTextSelect widget (textselect.cpp / textselect.hpp).

Shallow embedding conventions:
* UTF-8 strings are modelled as `List Char`, one entry per code point, so the
  byte-iterator arithmetic of the C++ (utf8::unchecked::advance / distance)
  becomes plain index arithmetic on code-point indices.
* `std::size_t` is modelled as `Nat`.  The sentinel `std::string_view::npos`
  (`SIZE_MAX = 2^64 - 1`) is the constant `npos`.  Wherever the C++ could wrap
  a `size_t` below zero, the embedding either proves the subtraction in range
  or the corresponding branch unreachable.
* Pixel quantities (`float`) are modelled as `ℚ`; only order comparisons on
  measured widths matter to the algorithms.
* `ImGui::CalcTextSize` applied to the first `k` code points of a line is
  abstracted as a host-supplied prefix-width function `w : Nat → ℚ`
  (`substringSizeX(s, 0, k)` = `w (min (utf8Length s) k)`).
* C++ loops are translated to structurally recursive functions on an explicit
  fuel argument whose initial value strictly exceeds the iteration count, so
  results compute by `decide`/`rfl`; loops whose termination depends on host
  behaviour (`wrapText`) return `Option` and yield `none` on fuel exhaustion.
* Reads past the end of a `string_view` performed by the C++ (utf8 iterator
  dereference at one-past-end) are modelled by an explicit out-of-bounds
  character parameter `oob`, so theorems can quantify over the value found
  there.
-/

/-- Sentinel `std::string_view::npos` (`SIZE_MAX` on 64-bit targets). -/
def npos : Nat := 2 ^ 64 - 1

/-- Cursor position in the window (textselect.hpp `struct CursorPos`):
`x` is the character index within the logical line, `y` the logical line
index. -/
structure CursorPos where
  x : Nat
  y : Nat
deriving DecidableEq, Repr

/-- Checks if a position is invalid (either field holds the `npos`
sentinel), mirroring `CursorPos::isInvalid`. -/
def CursorPos.isInvalid (p : CursorPos) : Bool :=
  p.x = npos || p.y = npos

/-- Normalized text selection (textselect.hpp `struct Selection`). -/
structure Selection where
  startX : Nat
  startY : Nat
  endX : Nat
  endY : Nat
deriving DecidableEq, Repr

/-- Selection endpoints held by the widget (fields `selectStart` and
`selectEnd` of `class TextSelect`). -/
structure SelState where
  selectStart : CursorPos
  selectEnd : CursorPos
deriving DecidableEq, Repr

/-- Checks if there is an active selection, mirroring
`TextSelect::hasSelection`. -/
def hasSelection (selectStart selectEnd : CursorPos) : Bool :=
  !selectStart.isInvalid && !selectEnd.isInvalid

/-- Normalizes the selection endpoints, mirroring `TextSelect::getSelection`
(textselect.cpp): chronological order is decided by (y, then x); X endpoints
are swapped together, Y endpoints via min/max. -/
def getSelection (selectStart selectEnd : CursorPos) : Selection :=
  if selectStart.y < selectEnd.y ∨ (selectStart.y = selectEnd.y ∧ selectStart.x < selectEnd.x) then
    { startX := selectStart.x
      startY := min selectStart.y selectEnd.y
      endX := selectEnd.x
      endY := max selectStart.y selectEnd.y }
  else
    { startX := selectEnd.x
      startY := min selectStart.y selectEnd.y
      endX := selectStart.x
      endY := max selectStart.y selectEnd.y }

/-- Checks whether a string ends with the given character, mirroring
`endsWith(std::string_view, char)`: false on the empty string. -/
def endsWith (l : List Char) (suffix : Char) : Bool :=
  match l.getLast? with
  | some c => c = suffix
  | none => false

/-- Word-boundary classifier, mirroring `isBoundary(char32_t)`: the fixed
range table { 0x20–0x2F, 0x3A–0x40, 0x5B–0x60, 0x7B–0xBF } over code
points. -/
def isBoundary (c : Char) : Bool :=
  (0x20 ≤ c.toNat && c.toNat ≤ 0x2F) ||
  (0x3A ≤ c.toNat && c.toNat ≤ 0x40) ||
  (0x5B ≤ c.toNat && c.toNat ≤ 0x60) ||
  (0x7B ≤ c.toNat && c.toNat ≤ 0xBF)

/-- Character of `line` at code-point index `i`; reads past the end of the
view (which the C++ performs through unchecked utf8 iterators) yield the
unconstrained out-of-bounds character `oob`. -/
def charAt (line : List Char) (oob : Char) (i : Nat) : Char :=
  line.getD i oob

/-- Left word scan of `TextSelect::handleMouseDown` (double-click branch):
`for (startInv = 0; startInv <= wholeX; startInv++) { if (isBoundary(*startIt)
!= isCurrentBoundary) break; selectStart = { wholeX - startInv, wholeY };
startIt--; }`.  `cur` carries the last value written to `selectStart.x`
(`none` when the loop has not written yet, in which case the previous
selection start survives).  `fuel` strictly exceeds the remaining iteration
count, so the translation is exact. -/
def leftScan (line : List Char) (oob : Char) (cls : Bool) (wholeX : Nat) :
    Nat → Nat → Option Nat → Option Nat
  | 0, _, cur => cur
  | fuel + 1, startInv, cur =>
    if startInv ≤ wholeX then
      if isBoundary (charAt line oob (wholeX - startInv)) ≠ cls then cur
      else leftScan line oob cls wholeX fuel (startInv + 1) (some (wholeX - startInv))
    else cur

/-- Right word scan of `TextSelect::handleMouseDown` (double-click branch):
`for (end = wholeX; end <= utf8Length(line); end++) { selectEnd = { end,
wholeY }; if (isBoundary(*endIt) != isCurrentBoundary) break; endIt++; }`.
Note the assignment to `selectEnd` happens before the classifier test, and
the classifier is applied at index `end`, which may equal the line length
(one-past-end read, modelled by `oob`). -/
def rightScan (line : List Char) (oob : Char) (cls : Bool) (lineLen : Nat) :
    Nat → Nat → Option Nat → Option Nat
  | 0, _, cur => cur
  | fuel + 1, e, cur =>
    if e ≤ lineLen then
      if isBoundary (charAt line oob e) ≠ cls then some e
      else rightScan line oob cls lineLen fuel (e + 1) (some e)
    else cur

/-- Code-point indices at which the double-click branch applies `isBoundary`
through a dereferenced utf8 iterator, in evaluation order, for the left
scan. -/
def leftScanDerefs (line : List Char) (oob : Char) (cls : Bool) (wholeX : Nat) :
    Nat → Nat → List Nat
  | 0, _ => []
  | fuel + 1, startInv =>
    if startInv ≤ wholeX then
      (wholeX - startInv) ::
        (if isBoundary (charAt line oob (wholeX - startInv)) ≠ cls then []
         else leftScanDerefs line oob cls wholeX fuel (startInv + 1))
    else []

/-- Code-point indices dereferenced by the right scan of the double-click
branch, in evaluation order. -/
def rightScanDerefs (line : List Char) (oob : Char) (cls : Bool) (lineLen : Nat) :
    Nat → Nat → List Nat
  | 0, _ => []
  | fuel + 1, e =>
    if e ≤ lineLen then
      e :: (if isBoundary (charAt line oob e) ≠ cls then []
            else rightScanDerefs line oob cls lineLen fuel (e + 1))
    else []

/-- Double-click branch of `TextSelect::handleMouseDown` (`mouseClicks % 2 ==
0`): classify the clicked character, scan left and right while the
classification is constant, and write the scans' last assignments into the
selection endpoints.  The fuel arguments strictly exceed the loops' iteration
counts (`startInv` ranges over `0..wholeX`, `end` over
`wholeX..line.length`). -/
def doubleClick (line : List Char) (oob : Char) (wholeX wholeY : Nat) (st : SelState) :
    SelState :=
  let cls := isBoundary (charAt line oob wholeX)
  let newStart := leftScan line oob cls wholeX (wholeX + 2) 0 none
  let newEnd := rightScan line oob cls line.length (line.length + 2) wholeX none
  { selectStart := match newStart with
      | some sx => ⟨sx, wholeY⟩
      | none => st.selectStart
    selectEnd := match newEnd with
      | some ex => ⟨ex, wholeY⟩
      | none => st.selectEnd }

/-- All code-point indices at which the double-click branch applies the
word-boundary classifier: the initial `isBoundary(*startIt)` at `wholeX`,
then the left scan, then the right scan. -/
def doubleClickDerefs (line : List Char) (oob : Char) (wholeX : Nat) : List Nat :=
  let cls := isBoundary (charAt line oob wholeX)
  wholeX ::
    (leftScanDerefs line oob cls wholeX (wholeX + 2) 0 ++
      rightScanDerefs line oob cls line.length (line.length + 2) wholeX)

/-- Triple-click branch of `TextSelect::handleMouseDown` (`mouseClicks % 3 ==
0`): select the whole line; on the last line the end is the line's character
count, otherwise the start of the next line.  (The sub-line index
computations in this branch of the C++ are dead code and do not affect the
endpoints.) -/
def tripleClick (numLines : Nat) (line : List Char) (wholeY : Nat) (st : SelState) :
    SelState :=
  let _ := st
  if wholeY = numLines - 1 then ⟨⟨0, wholeY⟩, ⟨line.length, wholeY⟩⟩
  else ⟨⟨0, wholeY⟩, ⟨0, wholeY + 1⟩⟩

/-- Shift-click branch of `TextSelect::handleMouseDown`: keep (or initialise
to the origin) the selection start and move the end to the clicked
position. -/
def shiftClick (wholeX wholeY : Nat) (st : SelState) : SelState :=
  { selectStart := if st.selectStart.isInvalid then ⟨0, 0⟩ else st.selectStart
    selectEnd := ⟨wholeX, wholeY⟩ }

/-- Plain single-click branch of `TextSelect::handleMouseDown`: set the start
position and invalidate the end position. -/
def singleClick (wholeX wholeY : Nat) (st : SelState) : SelState :=
  let _ := st
  ⟨⟨wholeX, wholeY⟩, ⟨npos, npos⟩⟩

/-- Click dispatch of `TextSelect::handleMouseDown` for `mouseClicks > 0`,
after the pixel position has been resolved to the logical position `(wholeX,
wholeY)` on `line`: triple click on `mouseClicks % 3 == 0`, double click on
`mouseClicks % 2 == 0`, otherwise shift-click or plain click. -/
def handleClick (mouseClicks : Nat) (shiftDown : Bool) (line : List Char) (oob : Char)
    (numLines wholeX wholeY : Nat) (st : SelState) : SelState :=
  if mouseClicks % 3 = 0 then tripleClick numLines line wholeY st
  else if mouseClicks % 2 = 0 then doubleClick line oob wholeX wholeY st
  else if shiftDown then shiftClick wholeX wholeY st
  else singleClick wholeX wholeY st

/-- Body of the copy loop of `TextSelect::copy`: iterates `i` from `startY`
while `i <= endY`, slices line `i` between its selection bounds by code-point
index, and appends a newline after any non-final slice that does not already
end in one.  `fuel` bounds the remaining iteration count (`endY + 1 -
startY` iterations happen in total, so any larger initial fuel is exact). -/
def copyLoop (linesF : Nat → List Char) (sel : Selection) : Nat → Nat → List Char
  | 0, _ => []
  | fuel + 1, i =>
    if i ≤ sel.endY then
      let line := linesF i
      let subStart := if i = sel.startY then sel.startX else 0
      let lineToAdd :=
        if i = sel.endY then (line.drop subStart).take (sel.endX - subStart)
        else line.drop subStart
      lineToAdd ++
        (if ¬ endsWith lineToAdd '\n' ∧ i < sel.endY then ['\n'] else []) ++
        copyLoop linesF sel fuel (i + 1)
    else []

/-- Clipboard result of `TextSelect::copy`: `none` when `hasSelection()` is
false (no clipboard write happens), otherwise the collected text. -/
def copyResult (linesF : Nat → List Char) (selectStart selectEnd : CursorPos) :
    Option (List Char) :=
  if hasSelection selectStart selectEnd then
    let sel := getSelection selectStart selectEnd
    some (copyLoop linesF sel (sel.endY + 2 - sel.startY) sel.startY)
  else none

/-- Line indices passed to the host accessor `getLineAtIdx` by
`TextSelect::copy`: one call per loop iteration, `startY` through `endY`;
no call when there is no selection.  `copy` performs no bounds check against
`getNumLines()`. -/
def copyAccesses (selectStart selectEnd : CursorPos) : List Nat :=
  if hasSelection selectStart selectEnd then
    let sel := getSelection selectStart selectEnd
    List.range' sel.startY (sel.endY + 1 - sel.startY)
  else []

/-- Selection state produced by `TextSelect::selectAll` on a host with `n`
lines: from the origin to (character count of last line, last line index).
The C++ computes `lastLineIdx = getNumLines() - 1` in `size_t`; the `Nat`
subtraction here agrees with it whenever `n ≥ 1`. -/
def selectAllState (linesF : Nat → List Char) (n : Nat) : SelState :=
  ⟨⟨0, 0⟩, ⟨(linesF (n - 1)).length, n - 1⟩⟩

/-- Recursive binary search of `getCharIndex(std::string_view, float,
std::size_t, std::size_t)`.  `len` is `utf8Length(s)` and `w` the host
prefix-width function: `substringSizeX(s, 0, k)` is `w (min len k)` (the C++
advances the end iterator by `min(utf8Length(s), length)`).  The C++ recursion
is translated with explicit fuel; `none` marks fuel exhaustion and is proved
unreachable for sufficient fuel.  In the first recursive call the C++
computes `midIdx - 1` in `size_t`, which would wrap for `midIdx == 0`; that
branch is proved unreachable (`getCharIndexUnderflow` below), so the `Nat`
subtraction here agrees with the C++ on all reachable paths. -/
def getCharIndexRec (len : Nat) (w : Nat → ℚ) (cursorPosX : ℚ) :
    Nat → Nat → Nat → Option Nat
  | 0, _, _ => none
  | fuel + 1, start, stop =>
    if cursorPosX < 0 then some 0
    else if len = 0 then some 0
    else if stop < start then some len
    else
      let midIdx := start + (stop - start) / 2
      let widthToMid := w (min len (midIdx + 1))
      let widthToMidEx := w (min len midIdx)
      if cursorPosX < widthToMidEx then getCharIndexRec len w cursorPosX fuel start (midIdx - 1)
      else if widthToMid < cursorPosX then getCharIndexRec len w cursorPosX fuel (midIdx + 1) stop
      else some midIdx

/-- Entry into the binary search at an arbitrary range, with fuel strictly
exceeding the worst-case frame count `stop + 1 - start + 1`. -/
def getCharIndexFrom (len : Nat) (w : Nat → ℚ) (cursorPosX : ℚ) (start stop : Nat) :
    Option Nat :=
  getCharIndexRec len w cursorPosX (stop + 2) start stop

/-- Wrapper `getCharIndex(std::string_view, float)` providing the initial
bounds `0` and `utf8Length(s)`. -/
def getCharIndex (len : Nat) (w : Nat → ℚ) (cursorPosX : ℚ) : Option Nat :=
  getCharIndexFrom len w cursorPosX 0 len

/-- Detector for the `size_t` underflow hazard in `getCharIndex`: true when
some reachable left-branch recursion happens with `midIdx == 0` (in which
case the C++ `midIdx - 1` would wrap to `SIZE_MAX`). -/
def getCharIndexUnderflow (len : Nat) (w : Nat → ℚ) (cursorPosX : ℚ) :
    Nat → Nat → Nat → Bool
  | 0, _, _ => false
  | fuel + 1, start, stop =>
    if cursorPosX < 0 then false
    else if len = 0 then false
    else if stop < start then false
    else
      let midIdx := start + (stop - start) / 2
      if cursorPosX < w (min len midIdx) then
        decide (midIdx = 0) || getCharIndexUnderflow len w cursorPosX fuel start (midIdx - 1)
      else if w (min len (midIdx + 1)) < cursorPosX then
        getCharIndexUnderflow len w cursorPosX fuel (midIdx + 1) stop
      else false

/-- Blank test `ImCharIsBlankA`: space or tab. -/
def imCharIsBlank (c : Char) : Bool :=
  c = ' ' || c = '\t'

/-- Blank-skipping loop of `CalcWordWrapNextLineStartA`: `while (text <
text_end && ImCharIsBlankA(*text)) text++`.  Fuel strictly exceeds the
remaining iteration count. -/
def skipBlanks (text : List Char) (oob : Char) : Nat → Nat → Nat
  | 0, p => p
  | fuel + 1, p =>
    if p < text.length then
      if imCharIsBlank (charAt text oob p) then skipBlanks text oob fuel (p + 1) else p
    else p

/-- Position of the next wrapped-line start, mirroring
`CalcWordWrapNextLineStartA`: skip blanks, then skip one newline.  The C++
dereferences `*text` after the blank loop even when `text == text_end`; that
read is modelled by `oob`. -/
def calcWordWrapNextLineStart (text : List Char) (oob : Char) (p : Nat) : Nat :=
  let q := skipBlanks text oob (text.length + 1) p
  if charAt text oob q = '\n' then q + 1 else q

/-- Loop of `wrapText`: repeatedly ask the host word-wrap primitive
`calcWrap` (abstracting `font->CalcWordWrapPositionA(1, start, textEnd,
wrapWidth)`, as a function of the start position in code points) for the end
of the current wrapped line, record non-empty segments as (start, length)
pairs, and jump to the next line start.  The C++ `while` loop need not
terminate for an adversarial host primitive, hence the fuel and the `none`
result on exhaustion. -/
def wrapTextAux (calcWrap : Nat → Nat) (oob : Char) (text : List Char) :
    Nat → Nat → List (Nat × Nat) → Option (List (Nat × Nat))
  | fuel, wrappedLineEnd, acc =>
    if wrappedLineEnd = text.length then some acc
    else
      match fuel with
      | 0 => none
      | fuel + 1 =>
        let start := wrappedLineEnd
        let stop := calcWrap start
        let acc2 := if stop - start ≠ 0 then acc ++ [(start, stop - start)] else acc
        wrapTextAux calcWrap oob text fuel (calcWordWrapNextLineStart text oob stop) acc2

/-- Splits `text` into wrapped sub-lines, mirroring `wrapText(std::string_view,
float, ImFont*)`; sub-lines are (start, length) pairs of code-point offsets
into `text`.  Empty text is treated as one empty sub-line. -/
def wrapText (calcWrap : Nat → Nat) (oob : Char) (text : List Char) :
    Option (List (Nat × Nat)) :=
  match wrapTextAux calcWrap oob text (text.length + 1) 0 [] with
  | none => none
  | some r => some (if r = [] then [(0, 0)] else r)

/-- Sub-line record of `TextSelect::SubLine`: the C++ stores a
`string_view` into the whole line; here the view is (whole-line index,
code-point offset, code-point length). -/
structure SubLine where
  wholeLineIndex : Nat
  off : Nat
  len : Nat
deriving DecidableEq, Repr

/-- Display width of the first `k` code points of `s`, mirroring
`substringSizeX(s, 0, k)` for an additive font with per-character advance
`adv` (the end iterator is advanced by `min(utf8Length(s), k)`, which
`List.take` performs; the empty string measures 0). -/
def substringSizeX (adv : Char → ℚ) (s : List Char) (k : Nat) : ℚ :=
  ((s.take k).map adv).sum

/-- Loop of `TextSelect::drawSelection` over the sub-lines: returns the
rectangles passed to `drawSelectionRect` (already offset by the cursor start
position `(cx, cy)`, as `(minX, minY, maxX, maxY)`) and the line indices
passed to `getLineAtIdx`, in order.  `continue` recurses keeping the
accumulated height; `break` stops; both record the `getLineAtIdx` call made
at the top of the iteration. -/
def drawSelectionLoop (linesF : Nat → List Char) (adv : Char → ℚ)
    (newlineWidth textHeight itemSpacing cx cy : ℚ) (sel : Selection) :
    List SubLine → ℚ → List (ℚ × ℚ × ℚ × ℚ) × List Nat
  | [], _ => ([], [])
  | sl :: rest, accumulatedHeight =>
    let wholeLine := linesF sl.wholeLineIndex
    let subText := (wholeLine.drop sl.off).take sl.len
    let subLineStartX := sl.off
    let subLineEndX := sl.off + sl.len
    let minY := accumulatedHeight
    let heightAfterText := accumulatedHeight + textHeight
    let heightAfter :=
      if sl.off + sl.len = wholeLine.length then heightAfterText + itemSpacing
      else heightAfterText
    let maxY := heightAfter
    if sel.startY > sl.wholeLineIndex ∨
        (sl.wholeLineIndex = sel.startY ∧ sel.startX ≥ subLineEndX) then
      let r := drawSelectionLoop linesF adv newlineWidth textHeight itemSpacing cx cy sel
        rest heightAfter
      (r.1, sl.wholeLineIndex :: r.2)
    else if sel.endY < sl.wholeLineIndex ∨
        (sl.wholeLineIndex = sel.endY ∧ sel.endX < subLineStartX) then
      ([], [sl.wholeLineIndex])
    else
      let isStartSubLine :=
        sl.wholeLineIndex = sel.startY ∧ subLineStartX ≤ sel.startX ∧ sel.startX ≤ subLineEndX
      let isEndSubLine :=
        sl.wholeLineIndex = sel.endY ∧ subLineStartX ≤ sel.endX ∧ sel.endX ≤ subLineEndX
      let minX :=
        if isStartSubLine then
          substringSizeX adv subText (sel.startX - min subLineStartX sel.startX)
        else 0
      let maxX :=
        if isEndSubLine then
          substringSizeX adv subText (sel.endX - min subLineStartX sel.endX)
        else substringSizeX adv subText subText.length + newlineWidth
      let r := drawSelectionLoop linesF adv newlineWidth textHeight itemSpacing cx cy sel
        rest heightAfter
      ((cx + minX, cy + minY, cx + maxX, cy + maxY) :: r.1, sl.wholeLineIndex :: r.2)

/-- Mirrors `TextSelect::drawSelection`: returns the drawn rectangles and the
`getLineAtIdx` accesses.  Before any line access the function returns early
when there is no selection or when the normalized selection's Y bounds reach
the current line count `numLines`. -/
def drawSelection (linesF : Nat → List Char) (numLines : Nat) (adv : Char → ℚ)
    (newlineWidth textHeight itemSpacing cx cy : ℚ) (subLines : List SubLine)
    (selectStart selectEnd : CursorPos) : List (ℚ × ℚ × ℚ × ℚ) × List Nat :=
  if ¬ hasSelection selectStart selectEnd then ([], [])
  else
    let sel := getSelection selectStart selectEnd
    if sel.startY ≥ numLines ∨ sel.endY ≥ numLines then ([], [])
    else drawSelectionLoop linesF adv newlineWidth textHeight itemSpacing cx cy sel subLines 0

/-- Modelled from the spec (section 8, round-trip property): the full text of
a list of lines joined with single newlines, "whether or not the earlier
line's own text already ends with a newline" — one `'\n'` is inserted after
each non-final line that does not already end in one, so exactly one newline
separates consecutive lines.  This is the spec-side definition that
`selectAll` followed by `copy` is compared against. -/
def joinedWithSingleNewlines : List (List Char) → List Char
  | [] => []
  | [l] => l
  | l :: l2 :: ls =>
    l ++ (if endsWith l '\n' then [] else ['\n']) ++ joinedWithSingleNewlines (l2 :: ls)

/-- Helper: the copy loop contributes nothing beyond the selection's last
line. -/
theorem copyLoop_past_end (linesF : Nat → List Char) (sel : Selection) :
    ∀ fuel i, sel.endY < i → copyLoop linesF sel fuel i = [] := by
  intro fuel i h
  cases fuel with
  | zero => rfl
  | succ fuel => simp [copyLoop, Nat.not_le.2 h]

/-- Helper: one-step unfolding of the copy loop inside the selection. -/
theorem copyLoop_step (linesF : Nat → List Char) (sel : Selection) (fuel i : Nat)
    (h : i ≤ sel.endY) :
    copyLoop linesF sel (fuel + 1) i =
      (if i = sel.endY then ((linesF i).drop (if i = sel.startY then sel.startX else 0)).take
          (sel.endX - (if i = sel.startY then sel.startX else 0))
        else (linesF i).drop (if i = sel.startY then sel.startX else 0)) ++
      (if ¬ endsWith (if i = sel.endY then
            ((linesF i).drop (if i = sel.startY then sel.startX else 0)).take
              (sel.endX - (if i = sel.startY then sel.startX else 0))
          else (linesF i).drop (if i = sel.startY then sel.startX else 0)) '\n' ∧ i < sel.endY
        then ['\n'] else []) ++
      copyLoop linesF sel fuel (i + 1) := by
  simp [copyLoop, h]

/-- Helper: join equation on a list with at least two lines. -/
theorem joinedWithSingleNewlines_cons (l : List Char) (ls : List (List Char)) (h : ls ≠ []) :
    joinedWithSingleNewlines (l :: ls) =
      l ++ (if endsWith l '\n' then [] else ['\n']) ++ joinedWithSingleNewlines ls := by
  cases ls with
  | nil => exact absurd rfl h
  | cons a as => rfl

/-- Helper: on the selection produced by select-all, the copy loop joins the
remaining whole lines with single newlines. -/
theorem copyLoop_selectAll (linesF : Nat → List Char) (n : Nat) (hn : 1 ≤ n) :
    ∀ fuel i, i ≤ n - 1 → n - i ≤ fuel →
      copyLoop linesF ⟨0, 0, (linesF (n - 1)).length, n - 1⟩ fuel i =
        joinedWithSingleNewlines ((List.range' i (n - i)).map linesF) := by
  intro fuel
  induction fuel with
  | zero => intro i hi hf; omega
  | succ fuel ih =>
    intro i hi hf
    rw [copyLoop_step linesF _ fuel i hi]
    by_cases hlast : i = n - 1
    · have hrange : n - i = 1 := by omega
      have hrec : copyLoop linesF ⟨0, 0, (linesF (n - 1)).length, n - 1⟩ fuel (i + 1) = [] :=
        copyLoop_past_end linesF _ fuel (i + 1) (by show n - 1 < i + 1; omega)
      rw [hrange, hrec]
      have hio : ¬ i < (⟨0, 0, (linesF (n - 1)).length, n - 1⟩ : Selection).endY := by
        show ¬ i < n - 1; omega
      simp only [List.range'_one, List.map_cons, List.map_nil]
      rw [if_pos (show i = (⟨0, 0, (linesF (n - 1)).length, n - 1⟩ : Selection).endY from hlast)]
      simp [hio, hlast, joinedWithSingleNewlines]
    · have hilt : i < n - 1 := by omega
      rw [if_neg (show ¬ i = (⟨0, 0, (linesF (n - 1)).length, n - 1⟩ : Selection).endY from hlast)]
      rw [ih (i + 1) (by omega) (by omega)]
      have hrw : n - i = (n - (i + 1)) + 1 := by omega
      rw [hrw, List.range'_succ, List.map_cons]
      rw [joinedWithSingleNewlines_cons _ _ (by
        simp only [ne_eq, List.map_eq_nil_iff, List.range'_eq_nil]
        omega)]
      have hsub : (if i = (⟨0, 0, (linesF (n - 1)).length, n - 1⟩ : Selection).startY
          then (⟨0, 0, (linesF (n - 1)).length, n - 1⟩ : Selection).startX else 0) = 0 := by
        by_cases h0 : i = 0 <;> simp [h0]
      rw [hsub]
      have hlt : i < (⟨0, 0, (linesF (n - 1)).length, n - 1⟩ : Selection).endY := hilt
      by_cases hnl : endsWith (linesF i) '\n'
      · simp [hnl, hlt]
      · simp [hnl, hlt]

/-- Helper: the selection normalized from the select-all endpoints. -/
theorem getSelection_selectAll (L lastIdx : Nat) :
    getSelection ⟨0, 0⟩ ⟨L, lastIdx⟩ = ⟨0, 0, L, lastIdx⟩ := by
  unfold getSelection
  by_cases h : (0 : Nat) < lastIdx ∨ ((0 : Nat) = lastIdx ∧ (0 : Nat) < L)
  · rw [if_pos h]
    simp
  · rw [if_neg h]
    have h1 : lastIdx = 0 := by omega
    have h2 : L = 0 := by
      rcases Nat.eq_zero_or_pos L with hL | hL
      · exact hL
      · exact absurd (Or.inr ⟨h1.symm, hL⟩) h
    subst h1
    subst h2
    simp

/-- C3: for every host providing at least one line, `selectAll()` followed by
`copy()` places on the clipboard the full text of all lines joined with
single newlines: one `'\n'` separates each pair of consecutive lines, the
earlier line's own trailing newline serving as the separator when present.
The two `npos` hypotheses state that the host's sizes are representable
`size_t` values below the sentinel, which is true of every real host. -/
theorem selectAll_copy_round_trip (linesF : Nat → List Char) (n : Nat) (hn : 1 ≤ n)
    (hLast : (linesF (n - 1)).length ≠ npos) (hIdx : n - 1 ≠ npos) :
    copyResult linesF (selectAllState linesF n).selectStart (selectAllState linesF n).selectEnd =
      some (joinedWithSingleNewlines ((List.range n).map linesF)) := by
  have h0 : (0 : Nat) ≠ npos := by unfold npos; omega
  have hsel : hasSelection (selectAllState linesF n).selectStart
      (selectAllState linesF n).selectEnd = true := by
    simp [selectAllState, hasSelection, CursorPos.isInvalid, h0, hLast, hIdx]
  unfold copyResult
  rw [if_pos hsel]
  have hgs : getSelection (selectAllState linesF n).selectStart (selectAllState linesF n).selectEnd
      = ⟨0, 0, (linesF (n - 1)).length, n - 1⟩ :=
    getSelection_selectAll (linesF (n - 1)).length (n - 1)
  rw [hgs]
  show some (copyLoop linesF ⟨0, 0, (linesF (n - 1)).length, n - 1⟩ ((n - 1) + 2 - 0) 0) =
    some (joinedWithSingleNewlines ((List.range n).map linesF))
  rw [copyLoop_selectAll linesF n hn ((n - 1) + 2 - 0) 0 (by omega) (by omega)]
  rw [List.range_eq_range']
  simp

/-- Witness for C3 at a concrete host: two lines, the first already ending in
a newline, so no separator is inserted after it. -/
theorem selectAll_copy_round_trip_witness :
    copyResult (fun i => if i = 0 then ['a', '\n'] else ['b'])
        (selectAllState (fun i => if i = 0 then ['a', '\n'] else ['b']) 2).selectStart
        (selectAllState (fun i => if i = 0 then ['a', '\n'] else ['b']) 2).selectEnd =
      some (joinedWithSingleNewlines
        ((List.range 2).map (fun i => if i = 0 then ['a', '\n'] else ['b']))) :=
  selectAll_copy_round_trip (fun i => if i = 0 then ['a', '\n'] else ['b']) 2
    (by norm_num) (by unfold npos; norm_num) (by unfold npos; norm_num)

/-- C5: for every pair of valid selection endpoints, `getSelection` returns a
selection with `startY ≤ endY`, with `startX ≤ endX` whenever `startY =
endY`, and with the X endpoints taken in the order given by whichever
endpoint is chronologically earlier under the (y, then x) order. -/
theorem getSelection_normalized_ordered (s e : CursorPos)
    (hs : s.isInvalid = false) (he : e.isInvalid = false) :
    (getSelection s e).startY ≤ (getSelection s e).endY ∧
    ((getSelection s e).startY = (getSelection s e).endY →
      (getSelection s e).startX ≤ (getSelection s e).endX) ∧
    ((s.y < e.y ∨ (s.y = e.y ∧ s.x < e.x)) →
      (getSelection s e).startX = s.x ∧ (getSelection s e).endX = e.x) ∧
    (¬ (s.y < e.y ∨ (s.y = e.y ∧ s.x < e.x)) →
      (getSelection s e).startX = e.x ∧ (getSelection s e).endX = s.x) := by
  unfold getSelection
  by_cases h : s.y < e.y ∨ (s.y = e.y ∧ s.x < e.x)
  · rw [if_pos h]
    refine ⟨min_le_max, ?_, fun _ => ⟨rfl, rfl⟩, fun hc => absurd h hc⟩
    intro heq
    simp only at heq ⊢
    omega
  · rw [if_neg h]
    refine ⟨min_le_max, ?_, fun hc => absurd hc h, fun _ => ⟨rfl, rfl⟩⟩
    intro heq
    simp only at heq ⊢
    omega

/-- Witness for C5 at concrete endpoints given in reverse chronological
order. -/
theorem getSelection_normalized_ordered_witness :
    (getSelection ⟨5, 3⟩ ⟨2, 1⟩).startY ≤ (getSelection ⟨5, 3⟩ ⟨2, 1⟩).endY :=
  (getSelection_normalized_ordered ⟨5, 3⟩ ⟨2, 1⟩ (by decide) (by decide)).1

/-- C1 counterexample: for the host lines `["abc", "defg"]`, a single click
at (line 0, char 1) followed by a shift-click at (line 1, char 2) normalizes
to the selection (1, 0)–(2, 1) as claimed, but `copy()` slices the last line
exclusively at `endX`, so the clipboard receives "bc\nde", not "bc\ndef". -/
theorem click_shiftClick_copy_counterexample :
    (let linesF : Nat → List Char :=
      fun i => if i = 0 then ['a', 'b', 'c'] else if i = 1 then ['d', 'e', 'f', 'g'] else []
    let st1 := handleClick 1 false (linesF 0) 'x' 2 1 0 ⟨⟨npos, npos⟩, ⟨npos, npos⟩⟩
    let st2 := handleClick 1 true (linesF 1) 'x' 2 2 1 st1
    getSelection st2.selectStart st2.selectEnd = ⟨1, 0, 2, 1⟩ ∧
      copyResult linesF st2.selectStart st2.selectEnd ≠
        some ['b', 'c', '\n', 'd', 'e', 'f'] ∧
      copyResult linesF st2.selectStart st2.selectEnd = some ['b', 'c', '\n', 'd', 'e']) := by
  decide

/-- C1 amended: in the scenario of the claim the normalized selection is
(startX 1, startY 0, endX 2, endY 1) and `copy()` places exactly "bc\nde"
on the clipboard (the end character index is exclusive). -/
theorem click_shiftClick_copy_amended :
    (let linesF : Nat → List Char :=
      fun i => if i = 0 then ['a', 'b', 'c'] else if i = 1 then ['d', 'e', 'f', 'g'] else []
    let st1 := handleClick 1 false (linesF 0) 'x' 2 1 0 ⟨⟨npos, npos⟩, ⟨npos, npos⟩⟩
    let st2 := handleClick 1 true (linesF 1) 'x' 2 2 1 st1
    getSelection st2.selectStart st2.selectEnd = ⟨1, 0, 2, 1⟩ ∧
      copyResult linesF st2.selectStart st2.selectEnd = some ['b', 'c', '\n', 'd', 'e']) := by
  decide

/-- C2 counterexample: with one host line (`n = 1`) and valid endpoints whose
normalized end line is 5 ≥ 1, `copy()` is not a silent no-op: it sets the
clipboard and passes the out-of-range index 5 to the `lineAt` accessor,
because `TextSelect::copy` has no bounds check against `getNumLines()`
(unlike `drawSelection`). -/
theorem copy_out_of_range_counterexample :
    hasSelection ⟨0, 0⟩ ⟨0, 5⟩ = true ∧
    (getSelection ⟨0, 0⟩ ⟨0, 5⟩).endY = 5 ∧
    copyResult (fun _ => ['a']) ⟨0, 0⟩ ⟨0, 5⟩ =
      some ['a', '\n', 'a', '\n', 'a', '\n', 'a', '\n', 'a', '\n'] ∧
    5 ∈ copyAccesses ⟨0, 0⟩ ⟨0, 5⟩ ∧ ¬ 5 < 1 := by
  decide

/-- C2 amended: when both endpoints are valid and the normalized selection's
`startY` or `endY` is at least the current line count, `drawSelection` is a
silent no-op — it draws no rectangle and never invokes the `lineAt`
accessor; `copy`, however, performs no such bounds check (see the
counterexample). -/
theorem drawSelection_out_of_range_noop (linesF : Nat → List Char) (numLines : Nat)
    (adv : Char → ℚ) (newlineWidth textHeight itemSpacing cx cy : ℚ)
    (subLines : List SubLine) (s e : CursorPos)
    (hsel : hasSelection s e = true)
    (hy : (getSelection s e).startY ≥ numLines ∨ (getSelection s e).endY ≥ numLines) :
    drawSelection linesF numLines adv newlineWidth textHeight itemSpacing cx cy subLines s e
      = ([], []) := by
  unfold drawSelection
  rw [if_neg (by simp [hsel])]
  exact if_pos hy

/-- Witness for the amended C2 at a concrete out-of-range selection. -/
theorem drawSelection_out_of_range_noop_witness :
    drawSelection (fun _ => ['a']) 1 (fun _ => 1) 1 1 1 0 0 [⟨0, 0, 1⟩] ⟨0, 0⟩ ⟨0, 5⟩
      = ([], []) :=
  drawSelection_out_of_range_noop (fun _ => ['a']) 1 (fun _ => 1) 1 1 1 0 0 [⟨0, 0, 1⟩]
    ⟨0, 0⟩ ⟨0, 5⟩ (by decide) (Or.inr (by decide))

/-- Helper: when the clicked character sits in a run of identically
classified characters starting at `a` (with a differently classified
character, or the line start, just before `a`), the left scan's last write
to the selection start is `a`. -/
theorem leftScan_run (line : List Char) (oob : Char) (cls : Bool) (wholeX a b : Nat)
    (hax : a ≤ wholeX) (hxb : wholeX ≤ b)
    (hrun : ∀ i, a ≤ i → i ≤ b → isBoundary (charAt line oob i) = cls)
    (hleft : a = 0 ∨ ¬ isBoundary (charAt line oob (a - 1)) = cls) :
    ∀ fuel startInv cur, startInv ≤ wholeX - a → wholeX + 2 - startInv ≤ fuel →
      leftScan line oob cls wholeX fuel startInv cur = some a := by
  intro fuel
  induction fuel with
  | zero => intro startInv cur h1 h2; omega
  | succ fuel ih =>
    intro startInv cur h1 h2
    have hle : startInv ≤ wholeX := by omega
    have hidx : isBoundary (charAt line oob (wholeX - startInv)) = cls :=
      hrun _ (by omega) (by omega)
    simp only [leftScan, if_pos hle]
    rw [if_neg (by simp [hidx])]
    by_cases hlast : startInv = wholeX - a
    · have hwa : wholeX - startInv = a := by omega
      rw [hwa]
      obtain ⟨fuel2, hf⟩ : ∃ f2, fuel = f2 + 1 := ⟨fuel - 1, by omega⟩
      subst hf
      simp only [leftScan]
      by_cases hz : a = 0
      · rw [if_neg (by omega)]
      · have hle2 : startInv + 1 ≤ wholeX := by omega
        rw [if_pos hle2]
        have hprev : wholeX - (startInv + 1) = a - 1 := by omega
        rw [hprev]
        rcases hleft with h | h
        · omega
        · rw [if_pos h]
    · exact ih (startInv + 1) (some (wholeX - startInv)) (by omega) (by omega)

/-- Helper: when the clicked character sits in a run of identically
classified characters ending at `b` (with a differently classified
character, or the line end, just after `b`), the right scan's last write to
the selection end is `b + 1`; this holds whatever character value sits one
past the end of the line. -/
theorem rightScan_run (line : List Char) (oob : Char) (cls : Bool) (wholeX a b : Nat)
    (hax : a ≤ wholeX) (hxb : wholeX ≤ b) (hblen : b < line.length)
    (hrun : ∀ i, a ≤ i → i ≤ b → isBoundary (charAt line oob i) = cls)
    (hright : b + 1 = line.length ∨ ¬ isBoundary (charAt line oob (b + 1)) = cls) :
    ∀ fuel e cur, wholeX ≤ e → e ≤ b + 1 → line.length + 2 - e ≤ fuel →
      rightScan line oob cls line.length fuel e cur = some (b + 1) := by
  intro fuel
  induction fuel with
  | zero => intro e cur h1 h2 h3; omega
  | succ fuel ih =>
    intro e cur h1 h2 h3
    have hle : e ≤ line.length := by omega
    simp only [rightScan, if_pos hle]
    by_cases hend : e = b + 1
    · subst hend
      by_cases hcl : isBoundary (charAt line oob (b + 1)) = cls
      · have hbl : b + 1 = line.length := by
          rcases hright with h | h
          · exact h
          · exact absurd hcl h
        rw [if_neg (by simp [hcl])]
        obtain ⟨fuel2, hf⟩ : ∃ f2, fuel = f2 + 1 := ⟨fuel - 1, by omega⟩
        subst hf
        simp only [rightScan]
        rw [if_neg (by omega)]
      · rw [if_pos hcl]
    · have hcl : isBoundary (charAt line oob e) = cls := hrun e (by omega) (by omega)
      rw [if_neg (by simp [hcl])]
      exact ih (e + 1) (some e) (by omega) (by omega) (by omega)

/-- C4: a double click (click count % 2 == 0 and % 3 != 0) at character
`wholeX` of a non-empty line, where `wholeX` lies inside the maximal run
`[a, b]` of consecutive code points sharing the clicked character's boundary
classification, selects exactly that run: `selectStart.x = a` and
`selectEnd.x = b + 1` (one past the run's last index), both on the clicked
line. -/
theorem doubleClick_selects_word_run (mouseClicks : Nat) (shiftDown : Bool)
    (line : List Char) (oob : Char) (numLines wholeX wholeY a b : Nat) (st : SelState)
    (hm2 : mouseClicks % 2 = 0) (hm3 : mouseClicks % 3 ≠ 0)
    (hax : a ≤ wholeX) (hxb : wholeX ≤ b) (hblen : b < line.length)
    (hrun : ∀ i, a ≤ i → i ≤ b →
      isBoundary (charAt line oob i) = isBoundary (charAt line oob wholeX))
    (hleft : a = 0 ∨
      ¬ isBoundary (charAt line oob (a - 1)) = isBoundary (charAt line oob wholeX))
    (hright : b + 1 = line.length ∨
      ¬ isBoundary (charAt line oob (b + 1)) = isBoundary (charAt line oob wholeX)) :
    (handleClick mouseClicks shiftDown line oob numLines wholeX wholeY st).selectStart
        = ⟨a, wholeY⟩ ∧
    (handleClick mouseClicks shiftDown line oob numLines wholeX wholeY st).selectEnd
        = ⟨b + 1, wholeY⟩ := by
  have hL : leftScan line oob (isBoundary (charAt line oob wholeX)) wholeX
      (wholeX + 2) 0 none = some a :=
    leftScan_run line oob _ wholeX a b hax hxb hrun hleft (wholeX + 2) 0 none
      (by omega) (by omega)
  have hR : rightScan line oob (isBoundary (charAt line oob wholeX)) line.length
      (line.length + 2) wholeX none = some (b + 1) :=
    rightScan_run line oob _ wholeX a b hax hxb hblen hrun hright (line.length + 2)
      wholeX none le_rfl (by omega) (by omega)
  unfold handleClick
  rw [if_neg hm3, if_pos hm2]
  unfold doubleClick
  dsimp only
  rw [hL, hR]
  exact ⟨rfl, rfl⟩

/-- Witness for C4: double-clicking (click count 2) on the 'b' of "ab cd"
selects exactly the letter run [0, 1]. -/
theorem doubleClick_selects_word_run_witness :
    (handleClick 2 false ['a', 'b', ' ', 'c', 'd'] 'x' 1 1 0
        ⟨⟨npos, npos⟩, ⟨npos, npos⟩⟩).selectStart = ⟨0, 0⟩ ∧
    (handleClick 2 false ['a', 'b', ' ', 'c', 'd'] 'x' 1 1 0
        ⟨⟨npos, npos⟩, ⟨npos, npos⟩⟩).selectEnd = ⟨2, 0⟩ :=
  doubleClick_selects_word_run 2 false ['a', 'b', ' ', 'c', 'd'] 'x' 1 1 0 0 1
    ⟨⟨npos, npos⟩, ⟨npos, npos⟩⟩ (by decide) (by decide) (by decide) (by decide)
    (by decide) (by intro i h1 h2; interval_cases i <;> decide)
    (Or.inl rfl) (Or.inr (by decide))

/-- Helper: every index dereferenced by the left scan is at most `wholeX`. -/
theorem leftScanDerefs_le (line : List Char) (oob : Char) (cls : Bool) (wholeX : Nat) :
    ∀ fuel startInv i, i ∈ leftScanDerefs line oob cls wholeX fuel startInv → i ≤ wholeX := by
  intro fuel
  induction fuel with
  | zero => intro startInv i hi; simp [leftScanDerefs] at hi
  | succ fuel ih =>
    intro startInv i hi
    simp only [leftScanDerefs] at hi
    by_cases h : startInv ≤ wholeX
    · rw [if_pos h] at hi
      rcases List.mem_cons.1 hi with h1 | h1
      · omega
      · by_cases hb : isBoundary (charAt line oob (wholeX - startInv)) ≠ cls
        · rw [if_pos hb] at h1
          simp at h1
        · rw [if_neg hb] at h1
          exact ih (startInv + 1) i h1
    · rw [if_neg h] at hi
      simp at hi

/-- Helper: every index dereferenced by the right scan is at most
`lineLen`. -/
theorem rightScanDerefs_le (line : List Char) (oob : Char) (cls : Bool) (lineLen : Nat) :
    ∀ fuel e i, i ∈ rightScanDerefs line oob cls lineLen fuel e → i ≤ lineLen := by
  intro fuel
  induction fuel with
  | zero => intro e i hi; simp [rightScanDerefs] at hi
  | succ fuel ih =>
    intro e i hi
    simp only [rightScanDerefs] at hi
    by_cases h : e ≤ lineLen
    · rw [if_pos h] at hi
      rcases List.mem_cons.1 hi with h1 | h1
      · omega
      · by_cases hb : isBoundary (charAt line oob e) ≠ cls
        · rw [if_pos hb] at h1
          simp at h1
        · rw [if_neg hb] at h1
          exact ih (e + 1) i h1
    · rw [if_neg h] at hi
      simp at hi

/-- C9 counterexample: double-clicking at character 0 of the line "ab" (a
two-letter run reaching the line end) makes the rightward scan apply the
word-boundary classifier at index 2, which is the line's character count —
one past the end, not strictly inside the line. -/
theorem doubleClick_deref_counterexample :
    2 ∈ doubleClickDerefs ['a', 'b'] ' ' 0 ∧ ¬ 2 < (['a', 'b'] : List Char).length := by
  decide

/-- C9 amended: every index at which a double click applies the
word-boundary classifier is at most the line's character count (the
initial classification happens at the clicked index, the left scan only
moves left, and the right scan stops at the character count); the index can
equal the character count — a one-past-the-end dereference — exactly when
the scan walks off the clicked run's end, and on an empty line every
dereference is at index 0 = length. -/
theorem doubleClickDerefs_bounded (line : List Char) (oob : Char) (wholeX : Nat)
    (hX : wholeX ≤ line.length) :
    ∀ i ∈ doubleClickDerefs line oob wholeX, i ≤ line.length := by
  intro i hi
  unfold doubleClickDerefs at hi
  rcases List.mem_cons.1 hi with h | h
  · omega
  · rcases List.mem_append.1 h with h1 | h1
    · exact le_trans (leftScanDerefs_le line oob _ wholeX (wholeX + 2) 0 i h1) hX
    · exact rightScanDerefs_le line oob _ line.length (line.length + 2) wholeX i h1

/-- Witness for the amended C9: a double click at the end position of "ab"
dereferences index 2, which the bound admits. -/
theorem doubleClickDerefs_bounded_witness :
    (2 : Nat) ≤ (['a', 'b'] : List Char).length :=
  doubleClickDerefs_bounded ['a', 'b'] 'x' 2 (by decide) 2 (by decide)

/-- C8: with word wrapping enabled, segmenting an empty logical line yields
exactly one sub-line, whose text is empty (offset 0, length 0) — never zero
sub-lines — for every host word-wrap primitive (i.e. every wrap width and
font) and whatever byte follows the empty view. -/
theorem wrapText_empty_line (calcWrap : Nat → Nat) (oob : Char) :
    wrapText calcWrap oob [] = some [(0, 0)] := by
  rfl

/-- Helper: one-step unfolding of the binary search. -/
theorem getCharIndexRec_succ (len : Nat) (w : Nat → ℚ) (x : ℚ) (fuel start stop : Nat) :
    getCharIndexRec len w x (fuel + 1) start stop =
      if x < 0 then some 0
      else if len = 0 then some 0
      else if stop < start then some len
      else if x < w (min len (start + (stop - start) / 2)) then
        getCharIndexRec len w x fuel start (start + (stop - start) / 2 - 1)
      else if w (min len (start + (stop - start) / 2 + 1)) < x then
        getCharIndexRec len w x fuel (start + (stop - start) / 2 + 1) stop
      else some (start + (stop - start) / 2) := by
  rfl

/-- Helper: a binary-search result is preserved by extra fuel. -/
theorem getCharIndexRec_fuel_succ (len : Nat) (w : Nat → ℚ) (x : ℚ) :
    ∀ fuel start stop r, getCharIndexRec len w x fuel start stop = some r →
      getCharIndexRec len w x (fuel + 1) start stop = some r := by
  intro fuel
  induction fuel with
  | zero => intro start stop r h; simp [getCharIndexRec] at h
  | succ fuel ih =>
    intro start stop r h
    rw [getCharIndexRec_succ] at h ⊢
    by_cases hx : x < 0
    · rwa [if_pos hx] at h ⊢
    rw [if_neg hx] at h ⊢
    by_cases hlen : len = 0
    · rwa [if_pos hlen] at h ⊢
    rw [if_neg hlen] at h ⊢
    by_cases hss : stop < start
    · rwa [if_pos hss] at h ⊢
    rw [if_neg hss] at h ⊢
    by_cases h1 : x < w (min len (start + (stop - start) / 2))
    · rw [if_pos h1] at h ⊢
      exact ih _ _ _ h
    rw [if_neg h1] at h ⊢
    by_cases h2 : w (min len (start + (stop - start) / 2 + 1)) < x
    · rw [if_pos h2] at h ⊢
      exact ih _ _ _ h
    · rwa [if_neg h2] at h ⊢

/-- Helper: with fuel at least `(stop + 1 - start) + 1` the binary search
completes (this is possible only because the left branch is unreachable at
midpoint 0, which in turn needs the width of the empty prefix to be 0). -/
theorem getCharIndexRec_isSome (len : Nat) (w : Nat → ℚ) (x : ℚ) (h0 : w 0 = 0) :
    ∀ fuel start stop, (stop + 1 - start) + 1 ≤ fuel →
      (getCharIndexRec len w x fuel start stop).isSome = true := by
  intro fuel
  induction fuel with
  | zero => intro start stop h; omega
  | succ fuel ih =>
    intro start stop h
    rw [getCharIndexRec_succ]
    by_cases hx : x < 0
    · rw [if_pos hx]; rfl
    rw [if_neg hx]
    by_cases hlen : len = 0
    · rw [if_pos hlen]; rfl
    rw [if_neg hlen]
    by_cases hss : stop < start
    · rw [if_pos hss]; rfl
    rw [if_neg hss]
    by_cases h1 : x < w (min len (start + (stop - start) / 2))
    · rw [if_pos h1]
      have hmid : 1 ≤ start + (stop - start) / 2 := by
        by_contra hc
        have hm0 : start + (stop - start) / 2 = 0 := by omega
        rw [hm0, Nat.min_zero, h0] at h1
        exact hx h1
      exact ih start (start + (stop - start) / 2 - 1) (by omega)
    rw [if_neg h1]
    by_cases h2 : w (min len (start + (stop - start) / 2 + 1)) < x
    · rw [if_pos h2]
      exact ih (start + (stop - start) / 2 + 1) stop (by omega)
    · rw [if_neg h2]; rfl

/-- Helper: one-step unfolding of the underflow detector. -/
theorem getCharIndexUnderflow_succ (len : Nat) (w : Nat → ℚ) (x : ℚ)
    (fuel start stop : Nat) :
    getCharIndexUnderflow len w x (fuel + 1) start stop =
      if x < 0 then false
      else if len = 0 then false
      else if stop < start then false
      else if x < w (min len (start + (stop - start) / 2)) then
        decide (start + (stop - start) / 2 = 0) ||
          getCharIndexUnderflow len w x fuel start (start + (stop - start) / 2 - 1)
      else if w (min len (start + (stop - start) / 2 + 1)) < x then
        getCharIndexUnderflow len w x fuel (start + (stop - start) / 2 + 1) stop
      else false := by
  rfl

/-- Helper: the binary search never takes its left branch with midpoint 0,
because the width of the empty prefix is 0 and the cursor offset is
non-negative past the first test. -/
theorem getCharIndexUnderflow_false (len : Nat) (w : Nat → ℚ) (x : ℚ) (h0 : w 0 = 0) :
    ∀ fuel start stop, getCharIndexUnderflow len w x fuel start stop = false := by
  intro fuel
  induction fuel with
  | zero => intro start stop; rfl
  | succ fuel ih =>
    intro start stop
    rw [getCharIndexUnderflow_succ]
    by_cases hx : x < 0
    · rw [if_pos hx]
    rw [if_neg hx]
    by_cases hlen : len = 0
    · rw [if_pos hlen]
    rw [if_neg hlen]
    by_cases hss : stop < start
    · rw [if_pos hss]
    rw [if_neg hss]
    by_cases h1 : x < w (min len (start + (stop - start) / 2))
    · rw [if_pos h1]
      have hmid : ¬ start + (stop - start) / 2 = 0 := by
        intro hm0
        rw [hm0, Nat.min_zero, h0] at h1
        exact hx h1
      simp [hmid, ih]
    rw [if_neg h1]
    by_cases h2 : w (min len (start + (stop - start) / 2 + 1)) < x
    · rw [if_pos h2]
      exact ih _ _
    · rw [if_neg h2]

/-- C10: for every line (length and prefix-width function with zero empty
width, as `ImGui::CalcTextSize` guarantees), every pixel offset, and every
search range, the recursive binary search terminates — fuel
`(stop + 1 - start) + 1` suffices and the result is stable under more fuel —
and the `start..midIdx-1` branch is never taken with `midIdx == 0`, so the
`size_t` subtraction `midIdx - 1` never underflows. -/
theorem getCharIndex_terminates_no_underflow (len : Nat) (w : Nat → ℚ) (x : ℚ)
    (start stop : Nat) (h0 : w 0 = 0) :
    (∃ r, ∀ fuel, (stop + 1 - start) + 1 ≤ fuel →
        getCharIndexRec len w x fuel start stop = some r) ∧
    (∀ fuel, getCharIndexUnderflow len w x fuel start stop = false) := by
  constructor
  · have h1 := getCharIndexRec_isSome len w x h0 ((stop + 1 - start) + 1) start stop le_rfl
    obtain ⟨r, hr⟩ := Option.isSome_iff_exists.1 h1
    refine ⟨r, fun fuel hf => ?_⟩
    have hstep : ∀ k, getCharIndexRec len w x ((stop + 1 - start) + 1 + k) start stop = some r := by
      intro k
      induction k with
      | zero => exact hr
      | succ k ihk => exact getCharIndexRec_fuel_succ len w x _ start stop r ihk
    have hk := hstep (fuel - ((stop + 1 - start) + 1))
    rwa [show (stop + 1 - start) + 1 + (fuel - ((stop + 1 - start) + 1)) = fuel by omega] at hk
  · exact fun fuel => getCharIndexUnderflow_false len w x h0 fuel start stop

/-- Witness for C10 at a concrete line and offset. -/
theorem getCharIndex_terminates_no_underflow_witness :
    getCharIndexUnderflow 3 (fun _ => (0 : ℚ)) 1 5 0 3 = false :=
  (getCharIndex_terminates_no_underflow 3 (fun _ => (0 : ℚ)) 1 0 3 rfl).2 5

/-- C7: the hit test returns index 0 when the pixel offset is negative or the
line is empty, and, for a non-negative offset on a non-empty line, an
inverted search range (`stop < start`) returns the line's UTF-8 character
count. -/
theorem getCharIndexFrom_degenerate (len : Nat) (w : Nat → ℚ) (x : ℚ) (start stop : Nat) :
    (x < 0 → getCharIndexFrom len w x start stop = some 0) ∧
    (len = 0 → getCharIndexFrom len w x start stop = some 0) ∧
    (0 ≤ x → len ≠ 0 → stop < start → getCharIndexFrom len w x start stop = some len) := by
  refine ⟨?_, ?_, ?_⟩
  · intro hx
    show getCharIndexRec len w x ((stop + 1) + 1) start stop = some 0
    rw [getCharIndexRec_succ, if_pos hx]
  · intro hlen
    show getCharIndexRec len w x ((stop + 1) + 1) start stop = some 0
    rw [getCharIndexRec_succ]
    by_cases hx : x < 0
    · rw [if_pos hx]
    · rw [if_neg hx, if_pos hlen]
  · intro hx hlen hss
    show getCharIndexRec len w x ((stop + 1) + 1) start stop = some len
    rw [getCharIndexRec_succ, if_neg (not_lt.2 hx), if_neg hlen, if_pos hss]

/-- Witness for C7: negative offset, empty line, and inverted range at
concrete inputs. -/
theorem getCharIndexFrom_degenerate_witness :
    getCharIndexFrom 3 (fun _ => (0 : ℚ)) (-1) 0 3 = some 0 ∧
    getCharIndexFrom 0 (fun _ => (0 : ℚ)) 2 0 0 = some 0 ∧
    getCharIndexFrom 3 (fun _ => (0 : ℚ)) 2 4 1 = some 3 :=
  ⟨(getCharIndexFrom_degenerate 3 (fun _ => (0 : ℚ)) (-1) 0 3).1 (by norm_num),
   (getCharIndexFrom_degenerate 0 (fun _ => (0 : ℚ)) 2 0 0).2.1 rfl,
   (getCharIndexFrom_degenerate 3 (fun _ => (0 : ℚ)) 2 4 1).2.2 (by norm_num) (by norm_num)
     (by norm_num)⟩

/-- Helper: under the search invariant "the width up to `start` is at most
the cursor offset", the binary search never returns an index below
`start`. -/
theorem getCharIndexRec_lower_bound (len : Nat) (w : Nat → ℚ) (x : ℚ)
    (hlen : len ≠ 0) (hx : 0 ≤ x) :
    ∀ fuel start stop r, w (min len start) ≤ x → start ≤ stop → stop ≤ len →
      getCharIndexRec len w x fuel start stop = some r → start ≤ r := by
  intro fuel
  induction fuel with
  | zero => intro start stop r _ _ _ h; simp [getCharIndexRec] at h
  | succ fuel ih =>
    intro start stop r hI1 hss hsl h
    rw [getCharIndexRec_succ, if_neg (not_lt.2 hx), if_neg hlen,
      if_neg (by omega : ¬ stop < start)] at h
    by_cases h1 : x < w (min len (start + (stop - start) / 2))
    · rw [if_pos h1] at h
      have hmid : start + 1 ≤ start + (stop - start) / 2 := by
        by_contra hc
        have hmeq : start + (stop - start) / 2 = start := by omega
        rw [hmeq] at h1
        exact absurd (lt_of_le_of_lt hI1 h1) (lt_irrefl _)
      exact ih start (start + (stop - start) / 2 - 1) r hI1 (by omega) (by omega) h
    rw [if_neg h1] at h
    by_cases h2 : w (min len (start + (stop - start) / 2 + 1)) < x
    · rw [if_pos h2] at h
      by_cases hms : start + (stop - start) / 2 = stop
      · rw [hms] at h
        cases fuel with
        | zero => simp [getCharIndexRec] at h
        | succ fuel2 =>
          rw [getCharIndexRec_succ, if_neg (not_lt.2 hx), if_neg hlen,
            if_pos (by omega : stop < stop + 1)] at h
          have hr := Option.some.inj h
          omega
      · have hlb := ih (start + (stop - start) / 2 + 1) stop r (le_of_lt h2) (by omega) hsl h
        omega
    · rw [if_neg h2] at h
      have hr := Option.some.inj h
      omega

/-- Helper: under the two-sided search invariant, the binary search never
returns an index above `stop`. -/
theorem getCharIndexRec_upper_bound (len : Nat) (w : Nat → ℚ) (x : ℚ)
    (hlen : len ≠ 0) (hx : 0 ≤ x) :
    ∀ fuel start stop r, w (min len start) ≤ x → x ≤ w (min len (stop + 1)) →
      start ≤ stop → stop ≤ len →
      getCharIndexRec len w x fuel start stop = some r → r ≤ stop := by
  intro fuel
  induction fuel with
  | zero => intro start stop r _ _ _ _ h; simp [getCharIndexRec] at h
  | succ fuel ih =>
    intro start stop r hI1 hI2 hss hsl h
    rw [getCharIndexRec_succ, if_neg (not_lt.2 hx), if_neg hlen,
      if_neg (by omega : ¬ stop < start)] at h
    by_cases h1 : x < w (min len (start + (stop - start) / 2))
    · rw [if_pos h1] at h
      have hmid : start + 1 ≤ start + (stop - start) / 2 := by
        by_contra hc
        have hmeq : start + (stop - start) / 2 = start := by omega
        rw [hmeq] at h1
        exact absurd (lt_of_le_of_lt hI1 h1) (lt_irrefl _)
      have hub := ih start (start + (stop - start) / 2 - 1) r hI1
        (by rw [show start + (stop - start) / 2 - 1 + 1 = start + (stop - start) / 2 by omega]
            exact le_of_lt h1)
        (by omega) (by omega) h
      omega
    rw [if_neg h1] at h
    by_cases h2 : w (min len (start + (stop - start) / 2 + 1)) < x
    · rw [if_pos h2] at h
      by_cases hms : start + (stop - start) / 2 = stop
      · rw [hms] at h2
        exact absurd (lt_of_le_of_lt hI2 h2) (lt_irrefl _)
      · exact ih (start + (stop - start) / 2 + 1) stop r (le_of_lt h2) hI2 (by omega) hsl h
    · rw [if_neg h2] at h
      have hr := Option.some.inj h
      omega

/-- Helper: on a common search range satisfying the search invariant, a
larger cursor offset never produces a smaller binary-search result. -/
theorem getCharIndexRec_mono_x (len : Nat) (w : Nat → ℚ) (x1 x2 : ℚ)
    (hlen : len ≠ 0) (hx1 : 0 ≤ x1) (hx12 : x1 ≤ x2) :
    ∀ fuel start stop r1 r2, w (min len start) ≤ x1 → start ≤ stop → stop ≤ len →
      getCharIndexRec len w x1 fuel start stop = some r1 →
      getCharIndexRec len w x2 fuel start stop = some r2 → r1 ≤ r2 := by
  have hx2 : (0 : ℚ) ≤ x2 := le_trans hx1 hx12
  intro fuel
  induction fuel with
  | zero => intro start stop r1 r2 _ _ _ h1 _; simp [getCharIndexRec] at h1
  | succ fuel ih =>
    intro start stop r1 r2 hI1 hss hsl h1 h2
    rw [getCharIndexRec_succ, if_neg (not_lt.2 hx1), if_neg hlen,
      if_neg (by omega : ¬ stop < start)] at h1
    rw [getCharIndexRec_succ, if_neg (not_lt.2 hx2), if_neg hlen,
      if_neg (by omega : ¬ stop < start)] at h2
    by_cases hA : x1 < w (min len (start + (stop - start) / 2))
    · rw [if_pos hA] at h1
      have hmid : start + 1 ≤ start + (stop - start) / 2 := by
        by_contra hc
        have hmeq : start + (stop - start) / 2 = start := by omega
        rw [hmeq] at hA
        exact absurd (lt_of_le_of_lt hI1 hA) (lt_irrefl _)
      have hub1 : r1 ≤ start + (stop - start) / 2 - 1 :=
        getCharIndexRec_upper_bound len w x1 hlen hx1 fuel start
          (start + (stop - start) / 2 - 1) r1 hI1
          (by rw [show start + (stop - start) / 2 - 1 + 1 = start + (stop - start) / 2 by omega]
              exact le_of_lt hA)
          (by omega) (by omega) h1
      by_cases hB : x2 < w (min len (start + (stop - start) / 2))
      · rw [if_pos hB] at h2
        exact ih start (start + (stop - start) / 2 - 1) r1 r2 hI1 (by omega) (by omega) h1 h2
      rw [if_neg hB] at h2
      by_cases hC : w (min len (start + (stop - start) / 2 + 1)) < x2
      · rw [if_pos hC] at h2
        by_cases hms : start + (stop - start) / 2 = stop
        · rw [hms] at h2
          cases fuel with
          | zero => simp [getCharIndexRec] at h2
          | succ fuel2 =>
            rw [getCharIndexRec_succ, if_neg (not_lt.2 hx2), if_neg hlen,
              if_pos (by omega : stop < stop + 1)] at h2
            have hr2 := Option.some.inj h2
            omega
        · have hlb2 : start + (stop - start) / 2 + 1 ≤ r2 :=
            getCharIndexRec_lower_bound len w x2 hlen hx2 fuel
              (start + (stop - start) / 2 + 1) stop r2 (le_of_lt hC) (by omega) hsl h2
          omega
      · rw [if_neg hC] at h2
        have hr2 := Option.some.inj h2
        omega
    · rw [if_neg hA] at h1
      have hB : ¬ x2 < w (min len (start + (stop - start) / 2)) :=
        not_lt.2 (le_trans (not_lt.1 hA) hx12)
      rw [if_neg hB] at h2
      by_cases hD : w (min len (start + (stop - start) / 2 + 1)) < x1
      · rw [if_pos hD] at h1
        have hD2 : w (min len (start + (stop - start) / 2 + 1)) < x2 := lt_of_lt_of_le hD hx12
        rw [if_pos hD2] at h2
        by_cases hms : start + (stop - start) / 2 = stop
        · rw [hms] at h1 h2
          cases fuel with
          | zero => simp [getCharIndexRec] at h1
          | succ fuel2 =>
            rw [getCharIndexRec_succ, if_neg (not_lt.2 hx1), if_neg hlen,
              if_pos (by omega : stop < stop + 1)] at h1
            rw [getCharIndexRec_succ, if_neg (not_lt.2 hx2), if_neg hlen,
              if_pos (by omega : stop < stop + 1)] at h2
            have hr1 := Option.some.inj h1
            have hr2 := Option.some.inj h2
            omega
        · exact ih (start + (stop - start) / 2 + 1) stop r1 r2 (le_of_lt hD) (by omega) hsl h1 h2
      · rw [if_neg hD] at h1
        have hr1 := Option.some.inj h1
        by_cases hC : w (min len (start + (stop - start) / 2 + 1)) < x2
        · rw [if_pos hC] at h2
          by_cases hms : start + (stop - start) / 2 = stop
          · rw [hms] at h2
            cases fuel with
            | zero => simp [getCharIndexRec] at h2
            | succ fuel2 =>
              rw [getCharIndexRec_succ, if_neg (not_lt.2 hx2), if_neg hlen,
                if_pos (by omega : stop < stop + 1)] at h2
              have hr2 := Option.some.inj h2
              omega
          · have hlb2 : start + (stop - start) / 2 + 1 ≤ r2 :=
              getCharIndexRec_lower_bound len w x2 hlen hx2 fuel
                (start + (stop - start) / 2 + 1) stop r2 (le_of_lt hC) (by omega) hsl h2
            omega
        · rw [if_neg hC] at h2
          have hr2 := Option.some.inj h2
          omega

/-- C6: hit-testing is monotonic.  For every line (length and host
prefix-width function) whose prefix widths are non-decreasing and assign 0
to the empty prefix, and all pixel offsets `x1 ≤ x2`, the character index
returned by `getCharIndex` at `x1` is at most the one returned at `x2`. -/
theorem getCharIndex_monotone (len : Nat) (w : Nat → ℚ) (x1 x2 : ℚ)
    (hmono : Monotone w) (h0 : w 0 = 0) (hx : x1 ≤ x2) :
    (getCharIndex len w x1).getD 0 ≤ (getCharIndex len w x2).getD 0 := by
  by_cases hx1 : x1 < 0
  · have h1 : getCharIndex len w x1 = some 0 := by
      show getCharIndexRec len w x1 ((len + 1) + 1) 0 len = some 0
      rw [getCharIndexRec_succ, if_pos hx1]
    rw [h1]
    exact Nat.zero_le _
  · have hx1' : (0 : ℚ) ≤ x1 := not_lt.1 hx1
    have hx2' : (0 : ℚ) ≤ x2 := le_trans hx1' hx
    by_cases hlen : len = 0
    · have h1 : getCharIndex len w x1 = some 0 := by
        show getCharIndexRec len w x1 ((len + 1) + 1) 0 len = some 0
        rw [getCharIndexRec_succ, if_neg (not_lt.2 hx1'), if_pos hlen]
      have h2 : getCharIndex len w x2 = some 0 := by
        show getCharIndexRec len w x2 ((len + 1) + 1) 0 len = some 0
        rw [getCharIndexRec_succ, if_neg (not_lt.2 hx2'), if_pos hlen]
      rw [h1, h2]
    · obtain ⟨r1, hr1⟩ := Option.isSome_iff_exists.1
        (getCharIndexRec_isSome len w x1 h0 ((len + 1) + 1) 0 len (by omega))
      obtain ⟨r2, hr2⟩ := Option.isSome_iff_exists.1
        (getCharIndexRec_isSome len w x2 h0 ((len + 1) + 1) 0 len (by omega))
      have hI1 : w (min len 0) ≤ x1 := by
        rw [Nat.min_zero, h0]
        exact hx1'
      have hmain := getCharIndexRec_mono_x len w x1 x2 hlen hx1' hx ((len + 1) + 1)
        0 len r1 r2 hI1 (Nat.zero_le _) le_rfl hr1 hr2
      have e1 : getCharIndex len w x1 = some r1 := hr1
      have e2 : getCharIndex len w x2 = some r2 := hr2
      rw [e1, e2]
      exact hmain

/-- Witness for C6 on a three-character line with unit-width characters. -/
theorem getCharIndex_monotone_witness :
    (getCharIndex 3 (fun k => (k : ℚ)) 0).getD 0 ≤ (getCharIndex 3 (fun k => (k : ℚ)) 2).getD 0 :=
  getCharIndex_monotone 3 (fun k => (k : ℚ)) 0 2
    (fun a b hab => by simpa using (Nat.cast_le (α := ℚ)).2 hab) (by norm_num) (by norm_num)
